import Mathlib

/-!
Verification of the write0 editor core.

This file gives a shallow embedding of the interval-set maintenance,
edit inference, pattern-annotation overlap resolution, undo/redo history
and paragraph-focus logic of the write0 editor (`components/Editor.tsx`
and `constants.ts`), together with theorems checking the natural-language
specification against that embedding.

Modelling conventions:
* JavaScript numbers holding character offsets/lengths/timestamps are
  embedded as `Int` (all arithmetic involved is exact integer arithmetic).
* Document text is embedded as `List Char` (JS strings indexed by code
  unit; the code only uses `length`, `substring`, `indexOf`/`lastIndexOf`).
* `Array.prototype.sort` with a comparator is a stable sort (ES2019), so
  it is embedded as `List.insertionSort` over the comparator's reflexive
  order, which is stable.
* The interface field `end` of `PastedRange` is a Lean keyword and is
  written `«end»`.
-/

namespace Write0

/-- `PastedRange` from `types.ts`: a half-open range `[start, end)` of the
document tagged as pasted text. -/
structure PastedRange where
  start : Int
  «end» : Int
deriving DecidableEq, Repr

/-- The `mapPoint` helper of `calculateNewRanges` (deletion phase) in
`Editor.tsx`: maps an offset through a deletion of `deletedLength`
characters starting at `changeStart`. -/
def mapPoint (changeStart deletedLength p : Int) : Int :=
  if p ≤ changeStart then p
  else if p ≥ changeStart + deletedLength then p - deletedLength
  else changeStart

/-- The per-range body of the deletion phase (`1. Handle Deletions`) of
`calculateNewRanges` in `Editor.tsx`. -/
def deleteMapRange (changeStart deletedLength : Int) (range : PastedRange) :
    Option PastedRange :=
  let deletionEnd := changeStart + deletedLength
  if range.«end» ≤ changeStart then some range
  else if range.start ≥ deletionEnd then
    some ⟨range.start - deletedLength, range.«end» - deletedLength⟩
  else
    let overlapStart := max range.start changeStart
    let overlapEnd := min range.«end» deletionEnd
    let overlapLen := max 0 (overlapEnd - overlapStart)
    if overlapLen ≥ range.«end» - range.start then none
    else
      let nStart := mapPoint changeStart deletedLength range.start
      let nEnd := mapPoint changeStart deletedLength range.«end»
      if nEnd ≤ nStart then none
      else some ⟨nStart, nEnd⟩

/-- The deletion phase of `calculateNewRanges` (`map` followed by the
`filter` that removes the `null` entries). -/
def applyDeletion (ranges : List PastedRange) (changeStart deletedLength : Int) :
    List PastedRange :=
  ranges.filterMap (deleteMapRange changeStart deletedLength)

/-- The per-range body of the insertion phase (`2. Handle Insertions`,
a `flatMap`) of `calculateNewRanges` in `Editor.tsx`. -/
def insertMapRange (changeStart insertedLength : Int) (range : PastedRange) :
    List PastedRange :=
  if changeStart ≥ range.«end» then [range]
  else if changeStart ≤ range.start then
    [⟨range.start + insertedLength, range.«end» + insertedLength⟩]
  else
    [⟨range.start, changeStart⟩,
     ⟨changeStart + insertedLength, range.«end» + insertedLength⟩]

/-- The insertion phase of `calculateNewRanges`. -/
def applyInsertion (ranges : List PastedRange) (changeStart insertedLength : Int) :
    List PastedRange :=
  ranges.flatMap (insertMapRange changeStart insertedLength)

/-- `calculateNewRanges` from `Editor.tsx`: rebuilds the pasted-range list
after an edit that deletes `deletedLength` characters and inserts
`insertedLength` characters at `changeStart`.  The deletion phase runs
only when `deletedLength > 0` and the insertion phase only when
`insertedLength > 0`, exactly as the two `if` guards in the source. -/
def calculateNewRanges (currentRanges : List PastedRange)
    (changeStart deletedLength insertedLength : Int) : List PastedRange :=
  let afterDelete :=
    if deletedLength > 0 then applyDeletion currentRanges changeStart deletedLength
    else currentRanges
  if insertedLength > 0 then applyInsertion afterDelete changeStart insertedLength
  else afterDelete

/-- The per-range body of the `1. Delete Selection Phase` of `handlePaste`
in `Editor.tsx`.  It differs from `deleteMapRange` only in writing the
"overlap consumes the range" test as
`overlapEnd > overlapStart && overlapEnd - overlapStart >= range.end - range.start`. -/
def pasteDeleteMapRange (selStart selEnd : Int) (range : PastedRange) :
    Option PastedRange :=
  let selLen := selEnd - selStart
  if range.«end» ≤ selStart then some range
  else if range.start ≥ selEnd then
    some ⟨range.start - selLen, range.«end» - selLen⟩
  else
    let overlapStart := max range.start selStart
    let overlapEnd := min range.«end» selEnd
    if overlapEnd > overlapStart ∧ overlapEnd - overlapStart ≥ range.«end» - range.start then
      none
    else
      let nStart := mapPoint selStart selLen range.start
      let nEnd := mapPoint selStart selLen range.«end»
      if nEnd ≤ nStart then none
      else some ⟨nStart, nEnd⟩

/-- The `2. Insert Paste Phase` of `handlePaste` in `Editor.tsx`: the
`map` that shifts or marks ranges followed by the loop that expands each
`__split` marker into its two pieces, written as one `flatMap`. -/
def pasteInsertPhase (selStart pastedLength : Int) (ranges : List PastedRange) :
    List PastedRange :=
  ranges.flatMap fun range =>
    if range.start ≥ selStart then
      [⟨range.start + pastedLength, range.«end» + pastedLength⟩]
    else if range.start < selStart ∧ range.«end» > selStart then
      [⟨range.start, selStart⟩,
       ⟨selStart + pastedLength, range.«end» + pastedLength⟩]
    else [range]

/-- Comparator order of `finalRanges.sort((a, b) => a.start - b.start)`. -/
def leStart (a b : PastedRange) : Prop := a.start ≤ b.start

instance : DecidableRel leStart := fun a b => inferInstanceAs (Decidable (a.start ≤ b.start))

instance : IsTotal PastedRange leStart := ⟨fun a b => Int.le_total a.start b.start⟩

instance : IsTrans PastedRange leStart := ⟨fun _ _ _ h h' => le_trans h h'⟩

/-- The pasted-range update of `handlePaste` in `Editor.tsx`:
delete-selection phase (only when the selection is non-empty), insert
phase, push of the new range `[selStart, selStart + pastedLength)`, and
the final stable sort by `start`. -/
def handlePasteRanges (pastedRanges : List PastedRange)
    (selStart selEnd pastedLength : Int) : List PastedRange :=
  let selLen := selEnd - selStart
  let nextRanges :=
    if selLen > 0 then pastedRanges.filterMap (pasteDeleteMapRange selStart selEnd)
    else pastedRanges
  let finalRanges := pasteInsertPhase selStart pastedLength nextRanges ++
    [⟨selStart, selStart + pastedLength⟩]
  List.insertionSort leStart finalRanges

/-- The invariant of `PastedRangeSet` (spec §3): sorted by `start`,
mutually disjoint, no zero-length members.  For half-open ranges this is
`Pairwise (·.end ≤ ·.start)` plus positivity of every member. -/
def WellFormed (ranges : List PastedRange) : Prop :=
  ranges.Pairwise (fun a b => a.«end» ≤ b.start) ∧ ∀ r ∈ ranges, r.start < r.«end»

instance (ranges : List PastedRange) : Decidable (WellFormed ranges) :=
  inferInstanceAs (Decidable (_ ∧ _))

/-- The per-range body of the `flatMap` in `clearPastedStyle`
(`Editor.tsx`): a range not overlapping the selected window survives
unchanged; an overlapping range is replaced by its left part (if any)
and right part (if any) outside the window. -/
def clearRangePieces (selectionStart selectionEnd : Int) (range : PastedRange) :
    List PastedRange :=
  if range.«end» ≤ selectionStart ∨ range.start ≥ selectionEnd then [range]
  else
    (if range.start < selectionStart then [⟨range.start, selectionStart⟩] else []) ++
    (if range.«end» > selectionEnd then [⟨selectionEnd, range.«end»⟩] else [])

/-- The range computation of `clearPastedStyle` in `Editor.tsx`. -/
def clearPastedStyleRanges (ranges : List PastedRange)
    (selectionStart selectionEnd : Int) : List PastedRange :=
  ranges.flatMap (clearRangePieces selectionStart selectionEnd)

/-- The `(changeStart, deletedLength, insertedLength)` triple inferred by
the Edit Inferencer. -/
structure EditTriple where
  changeStart : Int
  deletedLength : Int
  insertedLength : Int
deriving DecidableEq, Repr

/-- The edit-inference computation of `handleChange` in `Editor.tsx`:
from the selection as it was before the edit, the previous and new
document contents, and the new (collapsed) cursor position, derive the
effective change position, deleted length and inserted length. -/
def inferEdit (prevStart prevEnd : Int) (oldContent newContent : List Char)
    (newCursor : Int) : EditTriple :=
  let deletedLength := prevEnd - prevStart
  let insertLength0 := (newContent.length : Int) - ((oldContent.length : Int) - deletedLength)
  if insertLength0 < 0 then
    { changeStart := if newCursor < prevStart then newCursor else prevStart
      deletedLength := -insertLength0
      insertedLength := 0 }
  else
    { changeStart := prevStart
      deletedLength := deletedLength
      insertedLength := insertLength0 }

/-- `StyleRule` from `constants.ts`, restricted to the fields the overlap
resolution of `renderStyleCheckedText` reads (the regex itself, label,
description and color play no role in overlap resolution). -/
structure StyleRule where
  id : String
  priority : Int
deriving DecidableEq, Repr

/-- A match record `{start, end, rule}` as gathered by step 1 of
`renderStyleCheckedText` in `Editor.tsx`. -/
structure RuleMatch where
  start : Int
  «end» : Int
  rule : StyleRule
deriving DecidableEq, Repr

/-- The acceptance order of step 2 of `renderStyleCheckedText`:
`allMatches.sort((a, b) => b.rule.priority - a.rule.priority || a.start - b.start)`,
i.e. priority descending, ties by start ascending. -/
def acceptanceLe (a b : RuleMatch) : Prop :=
  b.rule.priority < a.rule.priority ∨
    (a.rule.priority = b.rule.priority ∧ a.start ≤ b.start)

instance : DecidableRel acceptanceLe := fun a b =>
  inferInstanceAs (Decidable (b.rule.priority < a.rule.priority ∨
    (a.rule.priority = b.rule.priority ∧ a.start ≤ b.start)))

instance : IsTotal RuleMatch acceptanceLe := by
  constructor
  intro a b
  rcases lt_trichotomy a.rule.priority b.rule.priority with h | h | h
  · exact Or.inr (Or.inl h)
  · rcases Int.le_total a.start b.start with h' | h'
    · exact Or.inl (Or.inr ⟨h, h'⟩)
    · exact Or.inr (Or.inr ⟨h.symm, h'⟩)
  · exact Or.inl (Or.inl h)

instance : IsTrans RuleMatch acceptanceLe := by
  constructor
  rintro a b c (h | ⟨h, h'⟩) (g | ⟨g, g'⟩)
  · exact Or.inl (lt_trans g h)
  · exact Or.inl (g ▸ h)
  · exact Or.inl (h ▸ g)
  · exact Or.inr ⟨h.trans g, h'.trans g'⟩

/-- The span-intersection test of step 3 of `renderStyleCheckedText`:
`m.start < r.end && m.end > r.start`. -/
def spansOverlap (a b : RuleMatch) : Prop :=
  a.start < b.«end» ∧ a.«end» > b.start

instance : DecidableRel spansOverlap := fun a b =>
  inferInstanceAs (Decidable (a.start < b.«end» ∧ a.«end» > b.start))

/-- Step 3 of `renderStyleCheckedText`: greedily accept matches in
acceptance order, rejecting any candidate whose span intersects an
already-accepted span.  The source keeps a parallel `occupied` list that
always holds exactly the spans of the accepted matches, so the blocking
test is made against the accumulator itself. -/
def filterOverlaps (sortedMatches : List RuleMatch) : List RuleMatch :=
  sortedMatches.foldl
    (fun acc m =>
      if acc.any (fun r => decide (m.start < r.«end») && decide (m.«end» > r.start)) then acc
      else acc ++ [m])
    []

/-- The rendering order of step 4 of `renderStyleCheckedText`:
`matches.sort((a, b) => a.start - b.start)`. -/
def renderLe (a b : RuleMatch) : Prop := a.start ≤ b.start

instance : DecidableRel renderLe :=
  fun a b => inferInstanceAs (Decidable (a.start ≤ b.start))

instance : IsTotal RuleMatch renderLe := ⟨fun a b => Int.le_total a.start b.start⟩

instance : IsTrans RuleMatch renderLe := ⟨fun _ _ _ h h' => le_trans h h'⟩

/-- Steps 2–4 of `renderStyleCheckedText` in `Editor.tsx`: sort all
gathered matches into acceptance order, greedily filter overlaps, then
sort the accepted matches by start for rendering.  Step 1 (running every
rule's regex over the text) is abstracted as the `allMatches` argument,
since regex evaluation is outside the shallow embedding. -/
def resolveMatches (allMatches : List RuleMatch) : List RuleMatch :=
  List.insertionSort renderLe
    (filterOverlaps (List.insertionSort acceptanceLe allMatches))

/-- A selection `{start, end}` of the textarea. -/
structure Selection where
  start : Int
  «end» : Int
deriving DecidableEq, Repr

/-- A history entry of `historyRef` in `Editor.tsx`:
`{content, ranges, selection}`. -/
structure HistoryEntry where
  content : List Char
  ranges : List PastedRange
  selection : Selection
deriving DecidableEq, Repr

/-- The state of `historyRef` in `Editor.tsx`:
`{stack, currentIndex, lastEditTime}`.  `currentIndex` is `-1` while the
stack is empty. -/
structure HistoryState where
  stack : List HistoryEntry
  currentIndex : Int
  lastEditTime : Int
deriving DecidableEq, Repr

/-- The `shouldMerge` test of the history `useEffect`: a previous entry
exists at the cursor (`stack[currentIndex]` is `undefined` in JS for a
negative or out-of-bounds index, hence the guard on `currentIndex`), the
cursor is at the tip of the stack, the time since the last record is
under 1000 ms, and the text-length delta is at most 1 character. -/
def mergeCondition (h : HistoryState) (now : Int) (entry : HistoryEntry) : Prop :=
  (if 0 ≤ h.currentIndex then h.stack.get? h.currentIndex.toNat else none).elim False
    fun prevEntry =>
      h.currentIndex = (h.stack.length : Int) - 1 ∧
      now - h.lastEditTime < 1000 ∧
      ((entry.content.length : Int) - (prevEntry.content.length : Int)).natAbs ≤ 1

instance optionElimFalseDecidable {α : Type} (o : Option α) (p : α → Prop)
    [DecidablePred p] : Decidable (o.elim False p) :=
  match o with
  | none => isFalse (by simp [Option.elim])
  | some a => decidable_of_iff (p a) (by simp [Option.elim])

instance (h : HistoryState) (now : Int) (entry : HistoryEntry) :
    Decidable (mergeCondition h now entry) :=
  inferInstanceAs (Decidable (Option.elim _ False _))

/-- The recording effect of the history `useEffect` in `Editor.tsx` (the
non-undo path): when `mergeCondition` holds, coalesce by overwriting the
entry at the cursor in place; otherwise truncate any redo branch past the
cursor, push the new entry and advance the cursor.  Either way,
`lastEditTime` becomes `now`. -/
def recordEdit (h : HistoryState) (now : Int) (entry : HistoryEntry) : HistoryState :=
  if mergeCondition h now entry then
    { h with stack := h.stack.set h.currentIndex.toNat entry, lastEditTime := now }
  else
    let stack' :=
      if h.currentIndex < (h.stack.length : Int) - 1 then
        h.stack.take (h.currentIndex + 1).toNat
      else h.stack
    { stack := stack' ++ [entry], currentIndex := h.currentIndex + 1, lastEditTime := now }

/-- `performUndo` from `Editor.tsx`: when the cursor is above 0, step it
back and emit the entry now at the cursor (whose content, ranges and
selection the component restores); otherwise leave the state unchanged
and emit nothing. -/
def performUndo (h : HistoryState) : HistoryState × Option HistoryEntry :=
  if h.currentIndex > 0 then
    ({ h with currentIndex := h.currentIndex - 1 },
     h.stack.get? (h.currentIndex - 1).toNat)
  else (h, none)

/-- `performRedo` from `Editor.tsx`: when the cursor is below the tip,
step it forward and emit the entry now at the cursor. -/
def performRedo (h : HistoryState) : HistoryState × Option HistoryEntry :=
  if h.currentIndex < (h.stack.length : Int) - 1 then
    ({ h with currentIndex := h.currentIndex + 1 },
     h.stack.get? (h.currentIndex + 1).toNat)
  else (h, none)

/-- `String.prototype.lastIndexOf('\n')`: index of the last newline of
the list, or `-1` if there is none. -/
def lastIndexOfNl : List Char → Int
  | [] => -1
  | c :: cs =>
    let r := lastIndexOfNl cs
    if r ≥ 0 then r + 1
    else if c = '\n' then 0 else -1

/-- `String.prototype.indexOf('\n')`: index of the first newline of the
list, or `-1` if there is none. -/
def indexOfNl : List Char → Int
  | [] => -1
  | c :: cs =>
    if c = '\n' then 0
    else
      let r := indexOfNl cs
      if r = -1 then -1 else r + 1

/-- The `currentParagraphRange` computation of `Editor.tsx` (the body of
the `useMemo`, for non-empty content in focus mode): split the content at
the cursor, take one past the last newline before the cursor as `start`,
and the first newline at or after the cursor (or the text length) as
`end`. -/
def currentParagraphRange (content : List Char) (cursorOffset : Nat) : Int × Int :=
  let beforeCursor := content.take cursorOffset
  let afterCursor := content.drop cursorOffset
  let start := lastIndexOfNl beforeCursor + 1
  let endOffset := indexOfNl afterCursor
  (start, if endOffset = -1 then (content.length : Int) else (cursorOffset : Int) + endOffset)

/-! ### Specification-side definitions

The following definitions transcribe the *specification's wording* (not
the source) of the deletion mapping, the insertion mapping and the
paragraph-focus start offset.  They exist solely to be compared against
the embedded source functions above. -/

/-- Endpoint mapping as worded by the spec for the deletion case: an
endpoint lying (strictly) inside the deleted span is clipped to
`deleteStart`; an endpoint at or after the deletion's end is shifted left
by `deleteLength`; any other endpoint is unchanged. -/
def clipPoint (deleteStart deleteLength p : Int) : Int :=
  if deleteStart < p ∧ p < deleteStart + deleteLength then deleteStart
  else if deleteStart + deleteLength ≤ p then p - deleteLength
  else p

/-- The spec's per-range deletion mapping (§4.1 `applyDeletion`): a range
ending at or before `deleteStart` is unchanged; a range starting at or
after the deletion's end is shifted left by `deleteLength`; a range whose
overlap with the deleted span covers the entire range is dropped;
otherwise both endpoints are mapped through `clipPoint`. -/
def specDeleteRange (deleteStart deleteLength : Int) (r : PastedRange) :
    Option PastedRange :=
  if r.«end» ≤ deleteStart then some r
  else if deleteStart + deleteLength ≤ r.start then
    some ⟨r.start - deleteLength, r.«end» - deleteLength⟩
  else if r.«end» - r.start ≤
      min r.«end» (deleteStart + deleteLength) - max r.start deleteStart then none
  else some ⟨clipPoint deleteStart deleteLength r.start,
             clipPoint deleteStart deleteLength r.«end»⟩

/-- The spec's per-range insertion mapping (§4.1 `applyInsertion`): a
range strictly containing `insertStart` is split into
`[start, insertStart)` and `[insertStart+insertLength, end+insertLength)`;
a range whose start is at or after `insertStart` is shifted right by
`insertLength`; a range ending at or before `insertStart` is unchanged. -/
def specInsertRange (insertStart insertLength : Int) (r : PastedRange) :
    List PastedRange :=
  if r.start < insertStart ∧ insertStart < r.«end» then
    [⟨r.start, insertStart⟩, ⟨insertStart + insertLength, r.«end» + insertLength⟩]
  else if insertStart ≤ r.start then
    [⟨r.start + insertLength, r.«end» + insertLength⟩]
  else [r]

/-- The paragraph-focus `start` as worded by the spec: one past the
nearest newline *at or before* the caret offset, `0` if there is none.
(`content.take (off + 1)` retains exactly the offsets `≤ off`.) -/
def specStartAtOrBefore (content : List Char) (off : Nat) : Int :=
  lastIndexOfNl (content.take (off + 1)) + 1

/-- The paragraph-focus `end` as worded by the spec: the offset of the
nearest newline at or after the caret offset, or the text length if there
is none. -/
def specEndAtOrAfter (content : List Char) (off : Nat) : Int :=
  let r := indexOfNl (content.drop off)
  if r = -1 then (content.length : Int) else (off : Int) + r

end Write0

section Scratch
open Write0
example : calculateNewRanges [⟨10, 20⟩] 5 10 0 = [⟨5, 10⟩] := by decide
example : calculateNewRanges [⟨2, 8⟩] 4 0 3 = [⟨2, 4⟩, ⟨7, 11⟩] := by decide
example : handlePasteRanges [⟨0, 5⟩, ⟨8, 12⟩] 3 10 4 = [⟨0, 3⟩, ⟨3, 7⟩, ⟨7, 9⟩] := by decide
example : WellFormed [⟨0, 3⟩, ⟨3, 7⟩, ⟨7, 9⟩] := by decide
example : clearPastedStyleRanges [⟨0, 10⟩] 3 6 = [⟨0, 3⟩, ⟨6, 10⟩] := by decide
example : inferEdit 5 5 "hello".toList "hell".toList 4 = ⟨4, 1, 0⟩ := by decide
example : inferEdit 2 4 "hello".toList "heXo".toList 3 = ⟨2, 2, 1⟩ := by decide
example :
    resolveMatches [⟨0, 4, ⟨"weak", 5⟩⟩, ⟨2, 6, ⟨"passive", 10⟩⟩] =
      [⟨2, 6, ⟨"passive", 10⟩⟩] := by decide
example : currentParagraphRange "a\nb".toList 1 = (0, 1) := by decide
example : currentParagraphRange "a\nb".toList 2 = (2, 3) := by decide
example :
    recordEdit ⟨[⟨"a".toList, [], ⟨1, 1⟩⟩], 0, 100⟩ 200 ⟨"ab".toList, [], ⟨2, 2⟩⟩ =
      ⟨[⟨"ab".toList, [], ⟨2, 2⟩⟩], 0, 200⟩ := by decide
end Scratch

namespace Write0

/-! ## Claim C9: clearing the pasted tag is idempotent -/

theorem clearRangePieces_outside (s e : Int) (r : PastedRange) :
    ∀ p ∈ clearRangePieces s e r, p.«end» ≤ s ∨ p.start ≥ e := by
  intro p hp
  unfold clearRangePieces at hp
  split_ifs at hp with h1 h2 h3 h4
  · simp only [List.mem_singleton] at hp
    subst hp; exact h1
  · simp only [List.mem_append, List.mem_singleton] at hp
    rcases hp with hp | hp <;> subst hp
    · exact Or.inl (le_refl s)
    · exact Or.inr (le_refl e)
  · simp only [List.append_nil, List.mem_singleton] at hp
    subst hp; exact Or.inl (le_refl s)
  · simp only [List.nil_append, List.mem_singleton] at hp
    subst hp; exact Or.inr (le_refl e)
  · simp at hp

theorem clearRangePieces_fixed (s e : Int) (p : PastedRange)
    (hp : p.«end» ≤ s ∨ p.start ≥ e) : clearRangePieces s e p = [p] := by
  unfold clearRangePieces
  rw [if_pos hp]

theorem flatMap_eq_self {α : Type} (l : List α) (f : α → List α)
    (h : ∀ a ∈ l, f a = [a]) : l.flatMap f = l := by
  induction l with
  | nil => rfl
  | cons a l ih =>
    rw [List.flatMap_cons, h a (List.mem_cons_self a l),
      ih fun b hb => h b (List.mem_cons_of_mem a hb)]
    rfl

/-- C9: for every range list and non-empty clearing window
`[clearStart, clearEnd)`, the range computation of `clearPastedStyle` is
idempotent; every output range lies outside the window; and each input
range contributes at most two surviving pieces. -/
theorem clearTag_idempotent (ranges : List PastedRange) (clearStart clearEnd : Int)
    (_hwin : clearStart < clearEnd) :
    clearPastedStyleRanges (clearPastedStyleRanges ranges clearStart clearEnd)
        clearStart clearEnd =
      clearPastedStyleRanges ranges clearStart clearEnd ∧
    (∀ p ∈ clearPastedStyleRanges ranges clearStart clearEnd,
       p.«end» ≤ clearStart ∨ p.start ≥ clearEnd) ∧
    (∀ r : PastedRange, (clearRangePieces clearStart clearEnd r).length ≤ 2) := by
  have houtside : ∀ p ∈ clearPastedStyleRanges ranges clearStart clearEnd,
      p.«end» ≤ clearStart ∨ p.start ≥ clearEnd := by
    intro p hp
    rw [clearPastedStyleRanges, List.mem_flatMap] at hp
    obtain ⟨r, _, hpr⟩ := hp
    exact clearRangePieces_outside clearStart clearEnd r p hpr
  refine ⟨?_, houtside, ?_⟩
  · exact flatMap_eq_self _ _ fun p hp =>
      clearRangePieces_fixed clearStart clearEnd p (houtside p hp)
  · intro r
    unfold clearRangePieces
    split_ifs <;> simp

theorem clearTag_idempotent_witness :
    (0 : Int) < 5 ∧
      clearPastedStyleRanges (clearPastedStyleRanges [⟨1, 4⟩, ⟨6, 9⟩] 0 5) 0 5 =
        clearPastedStyleRanges [⟨1, 4⟩, ⟨6, 9⟩] 0 5 :=
  ⟨by decide, (clearTag_idempotent [⟨1, 4⟩, ⟨6, 9⟩] 0 5 (by decide)).1⟩

/-! ## Claim C5: the Edit Inferencer of `handleChange` -/

/-- C5: the Edit Inferencer computes
`insertedLength0 = newText.length - (oldText.length - (prevEnd - prevStart))`;
a non-negative `insertedLength0` yields a replacement of the old
selection, a negative one is reinterpreted as a pure deletion anchored at
`newCaret` when `newCaret < prevStart` and at `prevStart` otherwise; a
Backspace at caret 5 removing one character infers
`{changeStart: 4, deletedLength: 1, insertedLength: 0}`. -/
theorem edit_inferencer_spec (prevStart prevEnd : Int)
    (oldContent newContent : List Char) (newCursor : Int) :
    (0 ≤ (newContent.length : Int) - ((oldContent.length : Int) - (prevEnd - prevStart)) →
       inferEdit prevStart prevEnd oldContent newContent newCursor =
         ⟨prevStart, prevEnd - prevStart,
          (newContent.length : Int) - ((oldContent.length : Int) - (prevEnd - prevStart))⟩) ∧
    ((newContent.length : Int) - ((oldContent.length : Int) - (prevEnd - prevStart)) < 0 →
       inferEdit prevStart prevEnd oldContent newContent newCursor =
         ⟨if newCursor < prevStart then newCursor else prevStart,
          -((newContent.length : Int) - ((oldContent.length : Int) - (prevEnd - prevStart))),
          0⟩) ∧
    inferEdit 5 5 "hello".toList "hell".toList 4 = ⟨4, 1, 0⟩ := by
  refine ⟨?_, ?_, by decide⟩
  · intro h
    unfold inferEdit
    rw [if_neg (by omega)]
  · intro h
    unfold inferEdit
    rw [if_pos h]

theorem edit_inferencer_spec_witness :
    inferEdit 5 5 "hello".toList "helloa".toList 6 = ⟨5, 0, 1⟩ :=
  (edit_inferencer_spec 5 5 "hello".toList "helloa".toList 6).1 (by decide)

end Write0

namespace Write0

/-! ## Claim C6: priority-based overlap resolution of the annotator -/

theorem insertionSort_pair {α : Type} (r : α → α → Prop) [DecidableRel r] (a b : α) :
    List.insertionSort r [a, b] = if r a b then [a, b] else [b, a] := by
  simp only [List.insertionSort, List.orderedInsert]

theorem filterOverlaps_pair (a b : RuleMatch) :
    filterOverlaps [a, b] = if spansOverlap b a then [a] else [a, b] := by
  simp only [filterOverlaps, List.foldl_cons, List.foldl_nil, List.any_nil, List.any_cons,
    Bool.false_eq_true, if_false, List.nil_append, Bool.or_false, Bool.and_eq_true,
    decide_eq_true_eq, spansOverlap, gt_iff_lt]
  split_ifs with h1 <;> rfl

theorem spansOverlap_comm (a b : RuleMatch) : spansOverlap a b ↔ spansOverlap b a := by
  unfold spansOverlap
  constructor <;> exact fun h => ⟨h.2, h.1⟩

/-- C6: the overlap resolution of `renderStyleCheckedText` (acceptance in
priority order, greedy rejection of intersecting spans, rendering order
by start): when two matches with priorities 10 and 5 have intersecting
spans, only the priority-10 match is returned (whatever the gathering
order); two matches with non-intersecting spans both survive and are
returned sorted by start. -/
theorem annotator_priority_overlap_resolution (m1 m2 : RuleMatch) :
    (m1.rule.priority = 10 → m2.rule.priority = 5 → spansOverlap m1 m2 →
       resolveMatches [m1, m2] = [m1] ∧ resolveMatches [m2, m1] = [m1]) ∧
    (¬spansOverlap m1 m2 →
       m1 ∈ resolveMatches [m1, m2] ∧ m2 ∈ resolveMatches [m1, m2] ∧
       (resolveMatches [m1, m2]).Pairwise renderLe) := by
  constructor
  · intro h1 h2 hov
    have hacc : acceptanceLe m1 m2 := Or.inl (by rw [h1, h2]; norm_num)
    have hnacc : ¬acceptanceLe m2 m1 := by
      rintro (h | ⟨h, _⟩) <;> rw [h1, h2] at h <;> omega
    have hsort1 : List.insertionSort acceptanceLe [m1, m2] = [m1, m2] := by
      rw [insertionSort_pair, if_pos hacc]
    have hsort2 : List.insertionSort acceptanceLe [m2, m1] = [m1, m2] := by
      rw [insertionSort_pair, if_neg hnacc]
    have hfilter : filterOverlaps [m1, m2] = [m1] := by
      rw [filterOverlaps_pair, if_pos ((spansOverlap_comm m1 m2).mp hov)]
    constructor
    · unfold resolveMatches
      rw [hsort1, hfilter]
      rfl
    · unfold resolveMatches
      rw [hsort2, hfilter]
      rfl
  · intro hov
    have hov' : ¬spansOverlap m2 m1 := fun h => hov ((spansOverlap_comm m2 m1).mp h)
    have hboth : filterOverlaps (List.insertionSort acceptanceLe [m1, m2]) = [m1, m2] ∨
        filterOverlaps (List.insertionSort acceptanceLe [m1, m2]) = [m2, m1] := by
      rw [insertionSort_pair]
      split_ifs
      · rw [filterOverlaps_pair, if_neg hov']
        exact Or.inl rfl
      · rw [filterOverlaps_pair, if_neg hov]
        exact Or.inr rfl
    have hsorted : (resolveMatches [m1, m2]).Pairwise renderLe :=
      List.sorted_insertionSort renderLe _
    have hmem : ∀ x : RuleMatch, x ∈ ([m1, m2] : List RuleMatch) →
        x ∈ resolveMatches [m1, m2] := by
      intro x hx
      unfold resolveMatches
      rw [List.mem_insertionSort]
      rcases hboth with h | h <;> rw [h]
      · exact hx
      · simp only [List.mem_cons, List.mem_singleton] at hx ⊢
        tauto
    exact ⟨hmem m1 (by simp), hmem m2 (by simp), hsorted⟩

theorem annotator_priority_overlap_resolution_witness :
    (⟨2, 6, ⟨"passive", 10⟩⟩ : RuleMatch).rule.priority = 10 ∧
    (⟨0, 4, ⟨"weak", 5⟩⟩ : RuleMatch).rule.priority = 5 ∧
    spansOverlap ⟨2, 6, ⟨"passive", 10⟩⟩ ⟨0, 4, ⟨"weak", 5⟩⟩ ∧
    resolveMatches [⟨2, 6, ⟨"passive", 10⟩⟩, ⟨0, 4, ⟨"weak", 5⟩⟩] =
      [⟨2, 6, ⟨"passive", 10⟩⟩] :=
  ⟨by decide, by decide, by decide,
    ((annotator_priority_overlap_resolution ⟨2, 6, ⟨"passive", 10⟩⟩
      ⟨0, 4, ⟨"weak", 5⟩⟩).1 (by decide) (by decide) (by decide)).1⟩

end Write0

namespace Write0

/-! ## Claims C7 and C10: history recording, coalescing, undo/redo -/

theorem mergeCondition_iff (h : HistoryState) (now : Int) (entry : HistoryEntry) :
    mergeCondition h now entry ↔
      ∃ prevEntry, 0 ≤ h.currentIndex ∧
        h.stack.get? h.currentIndex.toNat = some prevEntry ∧
        h.currentIndex = (h.stack.length : Int) - 1 ∧
        now - h.lastEditTime < 1000 ∧
        ((entry.content.length : Int) - (prevEntry.content.length : Int)).natAbs ≤ 1 := by
  unfold mergeCondition
  constructor
  · intro hm
    split_ifs at hm with h0
    · obtain ho | ⟨pe, ho⟩ := Option.eq_none_or_eq_some (h.stack.get? h.currentIndex.toNat)
      · rw [ho] at hm
        simp only [Option.elim] at hm
      · rw [ho] at hm
        simp only [Option.elim] at hm
        exact ⟨pe, h0, ho, hm.1, hm.2.1, hm.2.2⟩
    · simp only [Option.elim] at hm
  · rintro ⟨pe, h0, hpe, h1, h2, h3⟩
    rw [if_pos h0, hpe]
    simp only [Option.elim]
    exact ⟨h1, h2, h3⟩

theorem recordEdit_merge (h : HistoryState) (now : Int) (entry : HistoryEntry)
    (hm : mergeCondition h now entry) :
    recordEdit h now entry =
      { stack := h.stack.set h.currentIndex.toNat entry,
        currentIndex := h.currentIndex, lastEditTime := now } := by
  unfold recordEdit
  rw [if_pos hm]

theorem recordEdit_push (h : HistoryState) (now : Int) (entry : HistoryEntry)
    (hm : ¬mergeCondition h now entry) :
    recordEdit h now entry =
      { stack := h.stack.take (h.currentIndex + 1).toNat ++ [entry],
        currentIndex := h.currentIndex + 1, lastEditTime := now } := by
  unfold recordEdit
  rw [if_neg hm]
  split_ifs with htip
  · rfl
  · have hlen : h.stack.length ≤ (h.currentIndex + 1).toNat := by omega
    rw [List.take_of_length_le hlen]

/-- C7: `record` coalesces (overwrites the entry at the cursor in place)
exactly when the cursor is at the tip, a previous entry exists, the time
since the last record is below the 1000 ms window and the text-length
delta is at most 1; otherwise entries past the cursor are truncated and
the new entry is pushed with the cursor advanced.  Five rapid
single-character edits inside the window collapse to one undo step, and
recording after an undo leaves no redo step available. -/
theorem history_record_coalescing_spec :
    (∀ (h : HistoryState) (now : Int) (entry : HistoryEntry),
       mergeCondition h now entry ↔
         ∃ prevEntry, 0 ≤ h.currentIndex ∧
           h.stack.get? h.currentIndex.toNat = some prevEntry ∧
           h.currentIndex = (h.stack.length : Int) - 1 ∧
           now - h.lastEditTime < 1000 ∧
           ((entry.content.length : Int) - (prevEntry.content.length : Int)).natAbs ≤ 1) ∧
    (∀ (h : HistoryState) (now : Int) (entry : HistoryEntry),
       mergeCondition h now entry →
         recordEdit h now entry =
           { stack := h.stack.set h.currentIndex.toNat entry,
             currentIndex := h.currentIndex, lastEditTime := now }) ∧
    (∀ (h : HistoryState) (now : Int) (entry : HistoryEntry),
       ¬mergeCondition h now entry →
         recordEdit h now entry =
           { stack := h.stack.take (h.currentIndex + 1).toNat ++ [entry],
             currentIndex := h.currentIndex + 1, lastEditTime := now }) ∧
    (recordEdit (recordEdit (recordEdit (recordEdit (recordEdit
         ⟨[⟨"".toList, [], ⟨0, 0⟩⟩], 0, 0⟩
         2000 ⟨"a".toList, [], ⟨1, 1⟩⟩)
         2100 ⟨"ab".toList, [], ⟨2, 2⟩⟩)
         2200 ⟨"abc".toList, [], ⟨3, 3⟩⟩)
         2300 ⟨"abcd".toList, [], ⟨4, 4⟩⟩)
         2400 ⟨"abcde".toList, [], ⟨5, 5⟩⟩ =
       ⟨[⟨"".toList, [], ⟨0, 0⟩⟩, ⟨"abcde".toList, [], ⟨5, 5⟩⟩], 1, 2400⟩ ∧
     performUndo ⟨[⟨"".toList, [], ⟨0, 0⟩⟩, ⟨"abcde".toList, [], ⟨5, 5⟩⟩], 1, 2400⟩ =
       (⟨[⟨"".toList, [], ⟨0, 0⟩⟩, ⟨"abcde".toList, [], ⟨5, 5⟩⟩], 0, 2400⟩,
        some ⟨"".toList, [], ⟨0, 0⟩⟩) ∧
     performUndo ⟨[⟨"".toList, [], ⟨0, 0⟩⟩, ⟨"abcde".toList, [], ⟨5, 5⟩⟩], 0, 2400⟩ =
       (⟨[⟨"".toList, [], ⟨0, 0⟩⟩, ⟨"abcde".toList, [], ⟨5, 5⟩⟩], 0, 2400⟩, none)) ∧
    (∀ (h : HistoryState) (now : Int) (entry : HistoryEntry),
       0 ≤ h.currentIndex → h.currentIndex < (h.stack.length : Int) - 1 →
         performRedo (recordEdit h now entry) = (recordEdit h now entry, none)) := by
  refine ⟨mergeCondition_iff, recordEdit_merge, recordEdit_push,
    ⟨by decide, by decide, by decide⟩, ?_⟩
  intro h now entry h0 htip
  have hm : ¬mergeCondition h now entry := by
    rw [mergeCondition_iff]
    rintro ⟨pe, -, -, hix, -⟩
    omega
  rw [recordEdit_push h now entry hm]
  unfold performRedo
  rw [if_neg]
  simp only [List.length_append, List.length_take, List.length_singleton]
  push_cast
  omega

theorem history_record_coalescing_spec_witness :
    recordEdit ⟨[⟨"a".toList, [], ⟨1, 1⟩⟩], 0, 0⟩ 500 ⟨"ab".toList, [], ⟨2, 2⟩⟩ =
      ⟨[⟨"ab".toList, [], ⟨2, 2⟩⟩], 0, 500⟩ :=
  (history_record_coalescing_spec.2.1
    ⟨[⟨"a".toList, [], ⟨1, 1⟩⟩], 0, 0⟩ 500 ⟨"ab".toList, [], ⟨2, 2⟩⟩ (by decide)).trans
    (by decide)

/-- C10: when the stack holds exactly one entry and a new state is
recorded within the 1000 ms window with a text-length delta of at most 1,
`record` overwrites the sole entry in place; undo is a no-op at cursor 0;
hence after such an overwrite no sequence of undo calls can restore the
overwritten initial snapshot. -/
theorem history_sole_entry_overwrite_unrecoverable :
    (∀ (e0 entry : HistoryEntry) (lastT now : Int),
       now - lastT < 1000 →
       ((entry.content.length : Int) - (e0.content.length : Int)).natAbs ≤ 1 →
       recordEdit ⟨[e0], 0, lastT⟩ now entry = ⟨[entry], 0, now⟩) ∧
    (∀ h : HistoryState, h.currentIndex = 0 → performUndo h = (h, none)) ∧
    (recordEdit ⟨[⟨"a".toList, [], ⟨1, 1⟩⟩], 0, 0⟩ 500 ⟨"b".toList, [], ⟨1, 1⟩⟩ =
       ⟨[⟨"b".toList, [], ⟨1, 1⟩⟩], 0, 500⟩ ∧
     (⟨"a".toList, [], ⟨1, 1⟩⟩ : HistoryEntry) ∉
       (recordEdit ⟨[⟨"a".toList, [], ⟨1, 1⟩⟩], 0, 0⟩ 500 ⟨"b".toList, [], ⟨1, 1⟩⟩).stack ∧
     ∀ n : Nat,
       (fun s => (performUndo s).1)^[n]
           (recordEdit ⟨[⟨"a".toList, [], ⟨1, 1⟩⟩], 0, 0⟩ 500 ⟨"b".toList, [], ⟨1, 1⟩⟩) =
         recordEdit ⟨[⟨"a".toList, [], ⟨1, 1⟩⟩], 0, 0⟩ 500 ⟨"b".toList, [], ⟨1, 1⟩⟩) := by
  refine ⟨?_, ?_, by decide, by decide, ?_⟩
  · intro e0 entry lastT now ht hd
    have hm : mergeCondition ⟨[e0], 0, lastT⟩ now entry := by
      rw [mergeCondition_iff]
      exact ⟨e0, by norm_num, rfl, by norm_num, ht, hd⟩
    rw [recordEdit_merge _ _ _ hm]
    rfl
  · intro h h0
    unfold performUndo
    rw [if_neg (by omega)]
  · intro n
    exact Function.iterate_fixed (by decide) n

theorem history_sole_entry_overwrite_unrecoverable_witness :
    recordEdit ⟨[⟨"a".toList, [], ⟨1, 1⟩⟩], 0, 0⟩ 999 ⟨"".toList, [], ⟨0, 0⟩⟩ =
      ⟨[⟨"".toList, [], ⟨0, 0⟩⟩], 0, 999⟩ :=
  history_sole_entry_overwrite_unrecoverable.1
    ⟨"a".toList, [], ⟨1, 1⟩⟩ ⟨"".toList, [], ⟨0, 0⟩⟩ 0 999 (by decide) (by decide)

end Write0

namespace Write0

/-! ## Claim C8: the Paragraph Focus Resolver -/

theorem indexOfNl_spec (l : List Char) :
    (indexOfNl l = -1 ∧ ∀ i : Nat, l[i]? ≠ some '\n') ∨
    (0 ≤ indexOfNl l ∧ l[(indexOfNl l).toNat]? = some '\n' ∧
      ∀ i : Nat, (i : Int) < indexOfNl l → l[i]? ≠ some '\n') := by
  induction l with
  | nil =>
    left
    exact ⟨rfl, fun i => by simp⟩
  | cons c cs ih =>
    by_cases hc : c = '\n'
    · right
      subst hc
      refine ⟨?_, ?_, ?_⟩ <;> simp [indexOfNl]
    · rcases ih with ⟨h1, h2⟩ | ⟨h0, hnl, hbefore⟩
      · left
        constructor
        · simp [indexOfNl, hc, h1]
        · intro i
          match i with
          | 0 => simpa using hc
          | j + 1 => simpa using h2 j
      · right
        have hne : indexOfNl cs ≠ -1 := by omega
        have hval : indexOfNl (c :: cs) = indexOfNl cs + 1 := by
          simp [indexOfNl, hc, hne]
        refine ⟨by omega, ?_, ?_⟩
        · rw [hval]
          have : (indexOfNl cs + 1).toNat = (indexOfNl cs).toNat + 1 := by omega
          rw [this, List.getElem?_cons_succ]
          exact hnl
        · intro i hi
          rw [hval] at hi
          match i with
          | 0 => simpa using hc
          | j + 1 =>
            rw [List.getElem?_cons_succ]
            exact hbefore j (by push_cast at hi ⊢; omega)

theorem lastIndexOfNl_spec (l : List Char) :
    (lastIndexOfNl l = -1 ∧ ∀ i : Nat, l[i]? ≠ some '\n') ∨
    (0 ≤ lastIndexOfNl l ∧ l[(lastIndexOfNl l).toNat]? = some '\n' ∧
      ∀ i : Nat, lastIndexOfNl l < (i : Int) → l[i]? ≠ some '\n') := by
  induction l with
  | nil =>
    left
    exact ⟨rfl, fun i => by simp⟩
  | cons c cs ih =>
    rcases ih with ⟨h1, h2⟩ | ⟨h0, hnl, hafter⟩
    · have hneg : ¬lastIndexOfNl cs ≥ 0 := by omega
      by_cases hc : c = '\n'
      · right
        have hval : lastIndexOfNl (c :: cs) = 0 := by
          simp [lastIndexOfNl, hneg, hc]
        rw [hval]
        refine ⟨le_refl 0, by simpa using hc, ?_⟩
        intro i hi
        match i with
        | 0 => simp at hi
        | j + 1 => simpa using h2 j
      · left
        constructor
        · simp [lastIndexOfNl, hneg, hc]
        · intro i
          match i with
          | 0 => simpa using hc
          | j + 1 => simpa using h2 j
    · right
      have hval : lastIndexOfNl (c :: cs) = lastIndexOfNl cs + 1 := by
        simp [lastIndexOfNl, h0]
      rw [hval]
      refine ⟨by omega, ?_, ?_⟩
      · have : (lastIndexOfNl cs + 1).toNat = (lastIndexOfNl cs).toNat + 1 := by omega
        rw [this, List.getElem?_cons_succ]
        exact hnl
      · intro i hi
        match i with
        | 0 => push_cast at hi; omega
        | j + 1 =>
          rw [List.getElem?_cons_succ]
          exact hafter j (by push_cast at hi ⊢; omega)

/-- C8 counterexample: at `content = "a\nb"` and caret offset 1 (the
caret sits on the newline character), `currentParagraphRange` returns
start 0, but "one past the nearest newline at or before the caret
offset" is 2: the source searches `content.substring(0, cursorOffset)`,
which only sees newlines strictly before the caret. -/
theorem paragraph_start_at_or_before_counterexample :
    ¬((currentParagraphRange "a\nb".toList 1).1 = specStartAtOrBefore "a\nb".toList 1 ∧
      (currentParagraphRange "a\nb".toList 1).2 = specEndAtOrAfter "a\nb".toList 1) := by
  decide

/-- C8 amended: for every text and caret offset within it, the resolver's
`start` is one past the nearest newline *strictly before* the caret
offset (0 if there is none), and its `end` is the offset of the nearest
newline at or after the caret offset (`text.length` if there is none). -/
theorem paragraph_focus_resolver_spec (content : List Char) (off : Nat)
    (hoff : off ≤ content.length) :
    (0 ≤ (currentParagraphRange content off).1 ∧
     (currentParagraphRange content off).1 ≤ (off : Int) ∧
     (∀ i : Nat, (currentParagraphRange content off).1 ≤ (i : Int) → i < off →
        content[i]? ≠ some '\n') ∧
     ((currentParagraphRange content off).1 = 0 ∨
      (0 < (currentParagraphRange content off).1 ∧
       (currentParagraphRange content off).1 - 1 < (off : Int) ∧
       content[((currentParagraphRange content off).1 - 1).toNat]? = some '\n'))) ∧
    ((off : Int) ≤ (currentParagraphRange content off).2 ∧
     (currentParagraphRange content off).2 ≤ (content.length : Int) ∧
     (∀ i : Nat, (off : Int) ≤ (i : Int) → (i : Int) < (currentParagraphRange content off).2 →
        content[i]? ≠ some '\n') ∧
     ((currentParagraphRange content off).2 = (content.length : Int) ∨
      content[(currentParagraphRange content off).2.toNat]? = some '\n')) := by
  have htakelen : (content.take off).length = off := by
    rw [List.length_take]
    omega
  constructor
  · have hfst : (currentParagraphRange content off).1 =
        lastIndexOfNl (content.take off) + 1 := rfl
    rcases lastIndexOfNl_spec (content.take off) with ⟨h1, h2⟩ | ⟨h0, hnl, hafter⟩
    · rw [hfst, h1]
      refine ⟨by norm_num, by positivity, ?_, Or.inl (by norm_num)⟩
      intro i _ hi
      have := h2 i
      rwa [List.getElem?_take_of_lt hi] at this
    · have hlt : (lastIndexOfNl (content.take off)).toNat < off := by
        have := List.getElem?_eq_some.mp hnl
        obtain ⟨hb, -⟩ := this
        omega
      rw [hfst]
      refine ⟨by omega, by omega, ?_, Or.inr ⟨by omega, by omega, ?_⟩⟩
      · intro i hi hio
        have := hafter i (by omega)
        rwa [List.getElem?_take_of_lt hio] at this
      · have : (lastIndexOfNl (content.take off) + 1 - 1).toNat =
            (lastIndexOfNl (content.take off)).toNat := by omega
        rw [this]
        rwa [List.getElem?_take_of_lt hlt] at hnl
  · rcases indexOfNl_spec (content.drop off) with ⟨h1, h2⟩ | ⟨h0, hnl, hbefore⟩
    · have hsnd : (currentParagraphRange content off).2 = (content.length : Int) := by
        simp only [currentParagraphRange, h1, if_pos]
      rw [hsnd]
      refine ⟨by omega, le_refl _, ?_, Or.inl rfl⟩
      intro i hi _
      have := h2 (i - off)
      rw [List.getElem?_drop] at this
      have hoi : off + (i - off) = i := by omega
      rwa [hoi] at this
    · have hne : indexOfNl (content.drop off) ≠ -1 := by omega
      have hsnd : (currentParagraphRange content off).2 =
          (off : Int) + indexOfNl (content.drop off) := by
        simp only [currentParagraphRange, hne, if_false, if_neg hne]
      have hlt : (indexOfNl (content.drop off)).toNat < content.length - off := by
        have := List.getElem?_eq_some.mp hnl
        obtain ⟨hb, -⟩ := this
        simpa using hb
      rw [hsnd]
      refine ⟨by omega, by omega, ?_, Or.inr ?_⟩
      · intro i hi hilt
        have := hbefore (i - off) (by omega)
        rw [List.getElem?_drop] at this
        have hoi : off + (i - off) = i := by omega
        rwa [hoi] at this
      · have htn : ((off : Int) + indexOfNl (content.drop off)).toNat =
            off + (indexOfNl (content.drop off)).toNat := by omega
        rw [htn]
        rw [List.getElem?_drop] at hnl
        exact hnl

theorem paragraph_focus_resolver_spec_witness :
    (3 : Nat) ≤ "ab\ncd".toList.length ∧
      (0 ≤ (currentParagraphRange "ab\ncd".toList 3).1 ∧
        (currentParagraphRange "ab\ncd".toList 3).1 ≤ (3 : Int)) :=
  ⟨by decide,
    ⟨(paragraph_focus_resolver_spec "ab\ncd".toList 3 (by decide)).1.1,
     (paragraph_focus_resolver_spec "ab\ncd".toList 3 (by decide)).1.2.1⟩⟩

end Write0

namespace Write0

/-! ## Claims C2 and C3: per-range deletion and insertion mappings -/

theorem mapPoint_eq_clipPoint (c d p : Int) (hd : 0 < d) :
    mapPoint c d p = clipPoint c d p := by
  unfold mapPoint clipPoint
  split_ifs <;> omega

theorem mapPoint_lt_of_not_drop (c d : Int) (r : PastedRange) (_hd : 0 < d)
    (_hr : r.start < r.«end»)
    (h1 : ¬r.«end» ≤ c) (h2 : ¬r.start ≥ c + d)
    (hnd : ¬max 0 (min r.«end» (c + d) - max r.start c) ≥ r.«end» - r.start) :
    mapPoint c d r.start < mapPoint c d r.«end» := by
  unfold mapPoint
  split_ifs <;> omega

theorem deleteMapRange_eq_spec (c d : Int) (r : PastedRange)
    (hr : r.start < r.«end») (hd : 0 < d) :
    deleteMapRange c d r = specDeleteRange c d r := by
  simp only [deleteMapRange, specDeleteRange]
  by_cases h1 : r.«end» ≤ c
  · rw [if_pos h1, if_pos h1]
  · rw [if_neg h1, if_neg h1]
    by_cases h2 : r.start ≥ c + d
    · rw [if_pos h2, if_pos (by omega : c + d ≤ r.start)]
    · rw [if_neg h2, if_neg (by omega : ¬c + d ≤ r.start)]
      by_cases h3 : max 0 (min r.«end» (c + d) - max r.start c) ≥ r.«end» - r.start
      · rw [if_pos h3,
          if_pos (by omega : r.«end» - r.start ≤ min r.«end» (c + d) - max r.start c)]
      · rw [if_neg h3,
          if_neg (by omega : ¬r.«end» - r.start ≤ min r.«end» (c + d) - max r.start c),
          if_neg (not_le.mpr (mapPoint_lt_of_not_drop c d r hd hr h1 h2 h3)),
          mapPoint_eq_clipPoint c d r.start hd, mapPoint_eq_clipPoint c d r.«end» hd]

/-- C2: with a sorted, disjoint, positive-length range list, the deletion
branch of `calculateNewRanges` maps each range independently to at most
one output range, exactly as the spec words it (unchanged before the
deleted span, shifted after it, dropped when the overlap consumes the
whole range, endpoints clipped/shifted otherwise); in particular
`[10,20)` under deletion of `[5,15)` becomes `[5,10)`. -/
theorem deletion_mapping_matches_spec (ranges : List PastedRange)
    (deleteStart deleteLength : Int) (hwf : WellFormed ranges) (hd : 0 < deleteLength) :
    calculateNewRanges ranges deleteStart deleteLength 0 =
      ranges.filterMap (specDeleteRange deleteStart deleteLength) ∧
    calculateNewRanges [⟨10, 20⟩] 5 10 0 = [⟨5, 10⟩] := by
  refine ⟨?_, by decide⟩
  simp only [calculateNewRanges, if_pos hd]
  rw [if_neg (by norm_num : ¬(0 : Int) > 0)]
  exact List.filterMap_congr fun r hr => deleteMapRange_eq_spec _ _ r (hwf.2 r hr) hd

theorem deletion_mapping_matches_spec_witness :
    calculateNewRanges [⟨10, 20⟩] 5 10 0 = [⟨5, 10⟩] :=
  (deletion_mapping_matches_spec [⟨10, 20⟩] 5 10 (by decide) (by decide)).2

theorem insertMapRange_eq_spec (c L : Int) (r : PastedRange) (hr : r.start < r.«end») :
    insertMapRange c L r = specInsertRange c L r := by
  unfold insertMapRange specInsertRange
  by_cases h1 : c ≥ r.«end»
  · rw [if_pos h1, if_neg (by omega : ¬(r.start < c ∧ c < r.«end»)),
      if_neg (by omega : ¬c ≤ r.start)]
  · rw [if_neg h1]
    by_cases h2 : c ≤ r.start
    · rw [if_pos h2, if_neg (by omega : ¬(r.start < c ∧ c < r.«end»)), if_pos h2]
    · rw [if_neg h2, if_pos (show r.start < c ∧ c < r.«end» by omega)]

/-- C3: with positive-length ranges, the insertion branch of
`calculateNewRanges` realizes the spec's case split: a range strictly
containing `insertStart` is split into `[start, insertStart)` and
`[insertStart+insertLength, end+insertLength)`; a range whose start is at
or after `insertStart` (including insertion exactly at its start
boundary) is shifted right without being extended; a range ending at or
before `insertStart` is unchanged. -/
theorem insertion_mapping_matches_spec (ranges : List PastedRange)
    (insertStart insertLength : Int)
    (hpos : ∀ r ∈ ranges, r.start < r.«end») (hL : 0 < insertLength) :
    calculateNewRanges ranges insertStart 0 insertLength =
      ranges.flatMap (specInsertRange insertStart insertLength) := by
  simp only [calculateNewRanges]
  rw [if_neg (by norm_num : ¬(0 : Int) > 0), if_pos hL]
  exact List.flatMap_congr fun r hr => insertMapRange_eq_spec _ _ r (hpos r hr)

theorem insertion_mapping_matches_spec_witness :
    calculateNewRanges [⟨2, 8⟩] 4 0 3 = [⟨2, 8⟩].flatMap (specInsertRange 4 3) :=
  insertion_mapping_matches_spec [⟨2, 8⟩] 4 3 (by decide) (by decide)

end Write0

namespace Write0

/-! ## Claim C1 machinery: invariant preservation -/

theorem mapPoint_mono (c d : Int) (hd : 0 ≤ d) {p q : Int} (hpq : p ≤ q) :
    mapPoint c d p ≤ mapPoint c d q := by
  unfold mapPoint
  split_ifs <;> omega

theorem deleteMapRange_some_bounds (c d : Int) (r : PastedRange)
    (hr : r.start < r.«end») (hd : 0 < d) :
    ∀ o ∈ deleteMapRange c d r,
      o.start < o.«end» ∧ mapPoint c d r.start ≤ o.start ∧
        o.«end» ≤ mapPoint c d r.«end» := by
  intro o ho
  simp only [Option.mem_def, deleteMapRange] at ho
  split_ifs at ho with h1 h2 h3 h4
  · obtain rfl : r = o := Option.some.inj ho
    refine ⟨hr, ?_, ?_⟩ <;> (unfold mapPoint; split_ifs <;> omega)
  · obtain rfl : (⟨r.start - d, r.«end» - d⟩ : PastedRange) = o := Option.some.inj ho
    refine ⟨by dsimp; omega, ?_, ?_⟩ <;> (unfold mapPoint; dsimp; split_ifs <;> omega)
  · obtain rfl : (⟨mapPoint c d r.start, mapPoint c d r.«end»⟩ : PastedRange) = o :=
      Option.some.inj ho
    exact ⟨not_le.mp h4, le_refl _, le_refl _⟩

theorem applyDeletion_wf (rs : List PastedRange) (c d : Int) (hwf : WellFormed rs)
    (hd : 0 < d) : WellFormed (applyDeletion rs c d) := by
  constructor
  · unfold applyDeletion
    rw [List.pairwise_filterMap]
    refine List.Pairwise.imp_of_mem ?_ hwf.1
    intro a b ha hb hab x hx y hy
    calc x.«end» ≤ mapPoint c d a.«end» :=
          (deleteMapRange_some_bounds c d a (hwf.2 a ha) hd x hx).2.2
      _ ≤ mapPoint c d b.start := mapPoint_mono c d (le_of_lt hd) hab
      _ ≤ y.start := (deleteMapRange_some_bounds c d b (hwf.2 b hb) hd y hy).2.1
  · intro o ho
    rw [applyDeletion, List.mem_filterMap] at ho
    obtain ⟨r, hrmem, hro⟩ := ho
    exact (deleteMapRange_some_bounds c d r (hwf.2 r hrmem) hd o hro).1

theorem pairwise_flatMap {α β : Type} {R : β → β → Prop} {l : List α} {f : α → List β} :
    (l.flatMap f).Pairwise R ↔
      (∀ a ∈ l, (f a).Pairwise R) ∧
      l.Pairwise (fun a b => ∀ x ∈ f a, ∀ y ∈ f b, R x y) := by
  unfold List.flatMap
  rw [List.pairwise_flatten, List.pairwise_map]
  simp only [List.forall_mem_map]

theorem insertMapRange_bounds (c L : Int) (r : PastedRange) (hL : 0 < L)
    (hr : r.start < r.«end») :
    (∀ p ∈ insertMapRange c L r,
       p.start < p.«end» ∧
       (if r.start < c then r.start else r.start + L) ≤ p.start ∧
       p.«end» ≤ (if r.«end» ≤ c then r.«end» else r.«end» + L)) ∧
    (insertMapRange c L r).Pairwise (fun a b => a.«end» ≤ b.start) := by
  by_cases h1 : c ≥ r.«end»
  · simp only [insertMapRange, if_pos h1]
    refine ⟨?_, by simp⟩
    intro p hp
    simp only [List.mem_singleton] at hp
    subst hp
    refine ⟨hr, ?_, ?_⟩ <;> (first | (split_ifs <;> omega) | omega)
  · by_cases h2 : c ≤ r.start
    · simp only [insertMapRange, if_neg h1, if_pos h2]
      refine ⟨?_, by simp⟩
      intro p hp
      simp only [List.mem_singleton] at hp
      subst hp
      refine ⟨by dsimp; omega, ?_, ?_⟩ <;>
        (dsimp; first | (split_ifs <;> omega) | omega)
    · simp only [insertMapRange, if_neg h1, if_neg h2]
      constructor
      · intro p hp
        simp only [List.mem_cons, List.mem_singleton, List.not_mem_nil, or_false] at hp
        rcases hp with hp | hp <;> subst hp <;>
          refine ⟨by dsimp; omega, ?_, ?_⟩ <;>
            (dsimp; first | (split_ifs <;> omega) | omega)
      · rw [List.pairwise_pair]
        dsimp
        omega

theorem ins_bound_cross (c L x y : Int) (hL : 0 < L) (hxy : x ≤ y) :
    (if x ≤ c then x else x + L) ≤ (if y < c then y else y + L) := by
  split_ifs <;> omega

theorem applyInsertion_wf (rs : List PastedRange) (c L : Int) (hwf : WellFormed rs)
    (hL : 0 < L) : WellFormed (applyInsertion rs c L) := by
  constructor
  · unfold applyInsertion
    rw [pairwise_flatMap]
    constructor
    · intro a ha
      exact (insertMapRange_bounds c L a hL (hwf.2 a ha)).2
    · refine List.Pairwise.imp_of_mem ?_ hwf.1
      intro a b ha hb hab x hx y hy
      calc x.«end» ≤ (if a.«end» ≤ c then a.«end» else a.«end» + L) :=
            ((insertMapRange_bounds c L a hL (hwf.2 a ha)).1 x hx).2.2
        _ ≤ (if b.start < c then b.start else b.start + L) :=
            ins_bound_cross c L _ _ hL hab
        _ ≤ y.start := ((insertMapRange_bounds c L b hL (hwf.2 b hb)).1 y hy).2.1
  · intro p hp
    rw [applyInsertion, List.mem_flatMap] at hp
    obtain ⟨r, hrm, hpr⟩ := hp
    exact ((insertMapRange_bounds c L r hL (hwf.2 r hrm)).1 p hpr).1

theorem applyInsertion_avoids (rs : List PastedRange) (c L : Int) :
    ∀ p ∈ applyInsertion rs c L, p.«end» ≤ c ∨ c + L ≤ p.start := by
  intro p hp
  rw [applyInsertion, List.mem_flatMap] at hp
  obtain ⟨r, -, hpr⟩ := hp
  unfold insertMapRange at hpr
  split_ifs at hpr with h1 h2
  · simp only [List.mem_singleton] at hpr
    subst hpr
    exact Or.inl h1
  · simp only [List.mem_singleton] at hpr
    subst hpr
    right; dsimp; omega
  · simp only [List.mem_cons, List.mem_singleton, List.not_mem_nil, or_false] at hpr
    rcases hpr with hpr | hpr <;> subst hpr
    · left; dsimp; omega
    · right; dsimp; omega

theorem calculateNewRanges_wf (rs : List PastedRange) (hwf : WellFormed rs)
    (c d i : Int) : WellFormed (calculateNewRanges rs c d i) := by
  simp only [calculateNewRanges]
  split_ifs with hi hd hd'
  · exact applyInsertion_wf _ c i (applyDeletion_wf rs c d hwf hd) hi
  · exact applyInsertion_wf _ c i hwf hi
  · exact applyDeletion_wf rs c d hwf hd'
  · exact hwf

end Write0

namespace Write0

/-! ## Claims C1 and C4: the paste path and invariant preservation -/

theorem pasteDeleteMapRange_eq (s e : Int) (r : PastedRange) (hr : r.start < r.«end») :
    pasteDeleteMapRange s e r = deleteMapRange s (e - s) r := by
  simp only [pasteDeleteMapRange, deleteMapRange]
  have hse : s + (e - s) = e := by ring
  rw [hse]
  by_cases h1 : r.«end» ≤ s
  · rw [if_pos h1, if_pos h1]
  · rw [if_neg h1, if_neg h1]
    by_cases h2 : r.start ≥ e
    · rw [if_pos h2, if_pos h2]
    · rw [if_neg h2, if_neg h2]
      by_cases h3 : min r.«end» e > max r.start s ∧
          min r.«end» e - max r.start s ≥ r.«end» - r.start
      · rw [if_pos h3,
          if_pos (show max 0 (min r.«end» e - max r.start s) ≥ r.«end» - r.start by omega)]
      · rw [if_neg h3,
          if_neg (show ¬max 0 (min r.«end» e - max r.start s) ≥ r.«end» - r.start from
            fun hcond => h3 ⟨by omega, by omega⟩)]

theorem applyDeletion_pos (rs : List PastedRange) (c d : Int)
    (hpos : ∀ r ∈ rs, r.start < r.«end») (hd : 0 < d) :
    ∀ o ∈ applyDeletion rs c d, o.start < o.«end» := by
  intro o ho
  rw [applyDeletion, List.mem_filterMap] at ho
  obtain ⟨r, hrm, hro⟩ := ho
  exact (deleteMapRange_some_bounds c d r (hpos r hrm) hd o hro).1

theorem pasteInsertPhase_eq (rs : List PastedRange) (s L : Int)
    (hpos : ∀ r ∈ rs, r.start < r.«end») :
    pasteInsertPhase s L rs = applyInsertion rs s L := by
  unfold pasteInsertPhase applyInsertion
  refine List.flatMap_congr fun r hr => ?_
  have hrp := hpos r hr
  unfold insertMapRange
  by_cases h1 : r.start ≥ s
  · rw [if_pos h1, if_neg (show ¬s ≥ r.«end» by omega), if_pos (show s ≤ r.start from h1)]
  · rw [if_neg h1]
    by_cases h2 : r.start < s ∧ r.«end» > s
    · rw [if_pos h2, if_neg (show ¬s ≥ r.«end» by omega),
        if_neg (show ¬s ≤ r.start by omega)]
    · rw [if_neg h2, if_pos (show s ≥ r.«end» by omega)]

theorem handlePaste_eq_composition (rs : List PastedRange) (s e L : Int)
    (hpos : ∀ r ∈ rs, r.start < r.«end») (hL : 0 < L) :
    handlePasteRanges rs s e L =
      List.insertionSort leStart
        (calculateNewRanges rs s (e - s) L ++ [⟨s, s + L⟩]) := by
  simp only [handlePasteRanges, calculateNewRanges, if_pos hL]
  congr 1
  congr 1
  by_cases hsel : e - s > 0
  · rw [if_pos hsel, if_pos hsel,
      show rs.filterMap (pasteDeleteMapRange s e) = applyDeletion rs s (e - s) from
        List.filterMap_congr fun r hr => pasteDeleteMapRange_eq s e r (hpos r hr)]
    exact pasteInsertPhase_eq _ s L (applyDeletion_pos rs s (e - s) hpos hsel)
  · rw [if_neg hsel, if_neg hsel]
    exact pasteInsertPhase_eq rs s L hpos

theorem wf_insertionSort (l : List PastedRange)
    (hpos : ∀ r ∈ l, r.start < r.«end»)
    (hdisj : l.Pairwise (fun a b => a.«end» ≤ b.start ∨ b.«end» ≤ a.start)) :
    WellFormed (List.insertionSort leStart l) := by
  have hperm : (List.insertionSort leStart l).Perm l := List.perm_insertionSort leStart l
  have hsorted : (List.insertionSort leStart l).Pairwise leStart :=
    List.sorted_insertionSort leStart l
  have hdisj' : (List.insertionSort leStart l).Pairwise
      (fun a b => a.«end» ≤ b.start ∨ b.«end» ≤ a.start) :=
    hdisj.perm hperm.symm fun hxy => hxy.symm
  constructor
  · refine List.Pairwise.imp_of_mem ?_ (hsorted.and hdisj')
    intro a b ha hb hab
    rcases hab.2 with h | h
    · exact h
    · have hbpos : b.start < b.«end» := hpos b (hperm.mem_iff.mp hb)
      have hle : a.start ≤ b.start := hab.1
      omega
  · intro r hrm
    exact hpos r (hperm.mem_iff.mp hrm)

/-- C1: for every sorted, disjoint, positive-length pasted-range list,
both the deletion/insertion mapping of `calculateNewRanges` (for every
edit triple) and the paste-replacement update of `handlePaste` (for every
selection and non-empty pasted text) return a list that is again sorted,
disjoint and free of zero-length members; ranges computed with
`end ≤ start` are discarded, never emitted. -/
theorem interval_ops_preserve_invariant (ranges : List PastedRange)
    (hwf : WellFormed ranges) :
    (∀ changeStart deletedLength insertedLength : Int,
       WellFormed (calculateNewRanges ranges changeStart deletedLength insertedLength)) ∧
    (∀ selStart selEnd pastedLength : Int, 0 < pastedLength →
       WellFormed (handlePasteRanges ranges selStart selEnd pastedLength)) := by
  refine ⟨fun c d i => calculateNewRanges_wf ranges hwf c d i, ?_⟩
  intro s e L hL
  rw [handlePaste_eq_composition ranges s e L hwf.2 hL]
  have hmidwf : WellFormed (calculateNewRanges ranges s (e - s) L) :=
    calculateNewRanges_wf ranges hwf s (e - s) L
  have hmid_avoid : ∀ p ∈ calculateNewRanges ranges s (e - s) L,
      p.«end» ≤ s ∨ s + L ≤ p.start := by
    intro p hp
    simp only [calculateNewRanges, if_pos hL] at hp
    exact applyInsertion_avoids _ s L p hp
  apply wf_insertionSort
  · intro r hr
    rw [List.mem_append] at hr
    rcases hr with hr | hr
    · exact hmidwf.2 r hr
    · simp only [List.mem_singleton] at hr
      subst hr
      dsimp
      omega
  · rw [List.pairwise_append]
    refine ⟨hmidwf.1.imp fun h => Or.inl h, by simp, ?_⟩
    intro a ha b hb
    simp only [List.mem_singleton] at hb
    subst hb
    rcases hmid_avoid a ha with h | h
    · exact Or.inl h
    · exact Or.inr h

theorem interval_ops_preserve_invariant_witness :
    WellFormed [⟨0, 2⟩, ⟨5, 9⟩] ∧
    WellFormed (calculateNewRanges [⟨0, 2⟩, ⟨5, 9⟩] 1 2 3) ∧
    (0 : Int) < 2 ∧
    WellFormed (handlePasteRanges [⟨0, 2⟩, ⟨5, 9⟩] 1 6 2) :=
  ⟨by decide,
   (interval_ops_preserve_invariant [⟨0, 2⟩, ⟨5, 9⟩] (by decide)).1 1 2 3,
   by decide,
   (interval_ops_preserve_invariant [⟨0, 2⟩, ⟨5, 9⟩] (by decide)).2 1 6 2 (by decide)⟩

/-- C4: on positive-length range lists with non-empty pasted text, the
pasted-range update of `handlePaste` equals the composition "deletion
mapping of `calculateNewRanges` with `deleteLength = selEnd - selStart`,
then its insertion mapping with `insertLength = pastedLength`, then
append the new range `[selStart, selStart + pastedLength)`, then stable
sort by start"; a selection overlapping two pasted ranges yields exactly
one new range spanning the pasted text with the pre-existing ranges
shifted/split. -/
theorem handlePaste_is_composed_replacement (ranges : List PastedRange)
    (selStart selEnd pastedLength : Int)
    (hpos : ∀ r ∈ ranges, r.start < r.«end») (hL : 0 < pastedLength) :
    handlePasteRanges ranges selStart selEnd pastedLength =
      List.insertionSort leStart
        (calculateNewRanges ranges selStart (selEnd - selStart) pastedLength ++
          [⟨selStart, selStart + pastedLength⟩]) ∧
    handlePasteRanges [⟨0, 5⟩, ⟨8, 12⟩] 3 10 4 = [⟨0, 3⟩, ⟨3, 7⟩, ⟨7, 9⟩] :=
  ⟨handlePaste_eq_composition ranges selStart selEnd pastedLength hpos hL, by decide⟩

theorem handlePaste_is_composed_replacement_witness :
    handlePasteRanges [⟨0, 5⟩, ⟨8, 12⟩] 3 10 4 =
      List.insertionSort leStart
        (calculateNewRanges [⟨0, 5⟩, ⟨8, 12⟩] 3 (10 - 3) 4 ++ [⟨3, 3 + 4⟩]) :=
  (handlePaste_is_composed_replacement [⟨0, 5⟩, ⟨8, 12⟩] 3 10 4
    (by decide) (by decide)).1

end Write0
